import Mathlib

/-!
Verification development for the Ovis-vllm preprocessing core.

This file shallowly embeds the two pure data-transformation algorithms of the
repository — the adaptive image tiling planner of
`src/ovis/vllm/processing_ovis.py` (`_partition`, `_covering_area`,
`_get_best_grid`, `construct_image_placeholders`, `_preprocess`, and the
placeholder-replacement loop of `OvisProcessor.__call__`) and the multimodal
sequence composer of `src/ovis/model/modeling_ovis.py` (`merge_multimodal`) —
and proves the specified properties about them.

Python integers are modelled as `ℕ` (all quantities involved are nonnegative;
Python `//` on nonnegative operands is `Nat` division), and Python float
arithmetic on ratios is modelled exactly by `ℚ`.
-/

namespace Ovis

/-! ## Tiling geometry (`preprocess_image` inner helpers) -/

/-- A crop rectangle `(left, upper, right, bottom)` in source pixel
coordinates, as produced by `_partition`. -/
structure Rect where
  left : ℕ
  upper : ℕ
  right : ℕ
  lower : ℕ
deriving DecidableEq, Repr

/-- Pixel area of a rectangle. -/
def rectArea (p : Rect) : ℕ := (p.right - p.left) * (p.lower - p.upper)

/-- Embedding of `_covering_area(left, upper, right, lower, side)`:
let `(w, h)` be the larger/smaller side; if `w > side` both sides are scaled
by `side / w`; the result is the scaled area `w * h`. -/
def _covering_area (p : Rect) (side : ℕ) : ℚ :=
  let w0 : ℕ := p.right - p.left
  let h0 : ℕ := p.lower - p.upper
  let w : ℚ := (max w0 h0 : ℕ)
  let h : ℚ := (min w0 h0 : ℕ)
  if (side : ℚ) < w then (h / w * side) * side else w * h

/-- The rectangle of `_partition` at a given `(row, col)` cell of the grid:
bands by integer division, the last row/column stretched to the image edge. -/
def cell (w h : ℕ) (grid : ℕ × ℕ) (row col : ℕ) : Rect :=
  let row_height := h / grid.1
  let col_width := w / grid.2
  { left := col * col_width
    upper := row * row_height
    right := if col = grid.2 - 1 then w else (col + 1) * col_width
    lower := if row = grid.1 - 1 then h else (row + 1) * row_height }

/-- Embedding of `_partition(img, grid)`: the row-major list of grid cells. -/
def _partition (w h : ℕ) (grid : ℕ × ℕ) : List Rect :=
  (List.range grid.1).flatMap fun row =>
    (List.range grid.2).map fun col => cell w h grid row col

/-- Embedding of the `covering_ratio` computed inside `_get_best_grid`:
sum of covering areas of the grid cells divided by the image area. -/
def coveringRatio (w h side : ℕ) (grid : ℕ × ℕ) : ℚ :=
  (((_partition w h grid).map fun p => _covering_area p side).sum) / ((w : ℚ) * h)

/-! ### Area bookkeeping -/

theorem sum_map_const {α : Type} (l : List α) (x : ℕ) :
    (l.map fun _ => x).sum = l.length * x := by
  induction l with
  | nil => simp
  | cons a t ih => simp [ih, Nat.succ_mul, Nat.add_comm]

/-- The band widths produced by integer division, with the last band stretched
to the boundary, sum to the whole extent. -/
theorem sum_bands (n total : ℕ) (hn : 1 ≤ n) :
    ((List.range n).map fun i =>
      (if i = n - 1 then total else (i + 1) * (total / n)) - i * (total / n)).sum
      = total := by
  obtain ⟨k, rfl⟩ : ∃ k, n = k + 1 := ⟨n - 1, by omega⟩
  rw [List.range_succ, List.map_append, List.sum_append]
  have hk : ∀ i ∈ List.range k,
      ((if i = k + 1 - 1 then total else (i + 1) * (total / (k + 1))) -
        i * (total / (k + 1))) = total / (k + 1) := by
    intro i hi
    have hik : i < k := List.mem_range.mp hi
    have : i ≠ k + 1 - 1 := by omega
    rw [if_neg this, Nat.succ_mul, Nat.add_sub_cancel_left]
  rw [List.map_congr_left hk, sum_map_const]
  have hlast : ((if k = k + 1 - 1 then total else (k + 1) * (total / (k + 1))) -
      k * (total / (k + 1))) = total - k * (total / (k + 1)) := by
    have hkk : k = k + 1 - 1 := by omega
    rw [if_pos hkk]
  have hm : k * (total / (k + 1)) ≤ total := by
    calc k * (total / (k + 1)) ≤ (k + 1) * (total / (k + 1)) :=
        Nat.mul_le_mul_right _ (by omega)
    _ = total / (k + 1) * (k + 1) := Nat.mul_comm _ _
    _ ≤ total := Nat.div_mul_le_self _ _
  simp only [List.length_range, List.map_cons, List.map_nil, List.sum_cons,
    List.sum_nil, hlast]
  omega

theorem sum_map_flatMap {α β : Type} (l : List α) (f : α → List β) (g : β → ℕ) :
    (((l.flatMap f).map g).sum) = (l.map fun a => ((f a).map g).sum).sum := by
  induction l with
  | nil => simp
  | cons a t ih => simp [List.flatMap_cons, List.map_append, List.sum_append, ih]

/-- The areas of the `_partition` rectangles sum to exactly the image area. -/
theorem partition_area_sum (w h r c : ℕ) (hr : 1 ≤ r) (hc : 1 ≤ c) :
    ((_partition w h (r, c)).map rectArea).sum = w * h := by
  unfold _partition
  rw [sum_map_flatMap]
  have hrow : ∀ row ∈ List.range r,
      (((List.range c).map fun col => cell w h (r, c) row col).map rectArea).sum
        = w * ((if row = r - 1 then h else (row + 1) * (h / r)) - row * (h / r)) := by
    intro row _
    rw [List.map_map]
    have hcell : ∀ col ∈ List.range c,
        (rectArea ∘ fun col => cell w h (r, c) row col) col =
          ((if col = c - 1 then w else (col + 1) * (w / c)) - col * (w / c)) *
            ((if row = r - 1 then h else (row + 1) * (h / r)) - row * (h / r)) := by
      intro col _
      rfl
    rw [List.map_congr_left hcell, List.sum_map_mul_right, sum_bands c w hc]
  rw [List.map_congr_left hrow, List.sum_map_mul_left, sum_bands r h hr]

/-! ### Covering areas never exceed true areas (C4) -/

theorem covering_area_le_area (p : Rect) (side : ℕ) :
    _covering_area p side ≤ (rectArea p : ℚ) := by
  obtain ⟨l, u, r, b⟩ := p
  show (if (side : ℚ) < ((max (r - l) (b - u) : ℕ) : ℚ)
      then (((min (r - l) (b - u) : ℕ) : ℚ) / ((max (r - l) (b - u) : ℕ) : ℚ) * side) * side
      else ((max (r - l) (b - u) : ℕ) : ℚ) * ((min (r - l) (b - u) : ℕ) : ℚ))
      ≤ (((r - l) * (b - u) : ℕ) : ℚ)
  set w0 : ℕ := r - l with hw0
  set h0 : ℕ := b - u with hh0
  have hprod : ((max w0 h0 : ℕ) : ℚ) * ((min w0 h0 : ℕ) : ℚ) = ((w0 * h0 : ℕ) : ℚ) := by
    rcases le_total w0 h0 with hle | hle
    · simp [Nat.max_eq_right hle, Nat.min_eq_left hle, Nat.cast_mul, mul_comm]
    · simp [Nat.max_eq_left hle, Nat.min_eq_right hle, Nat.cast_mul]
  set W : ℚ := ((max w0 h0 : ℕ) : ℚ) with hW
  set H : ℚ := ((min w0 h0 : ℕ) : ℚ) with hH
  have hHnn : 0 ≤ H := by positivity
  have hSnn : (0 : ℚ) ≤ side := by positivity
  split_ifs with hcase
  · have hWpos : 0 < W := lt_of_le_of_lt hSnn hcase
    have hgoal : H / W * side * side ≤ W * H := by
      rw [div_mul_eq_mul_div, div_mul_eq_mul_div, div_le_iff₀ hWpos]
      have hs2 : (side : ℚ) * side ≤ W * W := mul_self_le_mul_self hSnn (le_of_lt hcase)
      nlinarith [mul_le_mul_of_nonneg_left hs2 hHnn]
    calc H / W * side * side ≤ W * H := hgoal
    _ = ((w0 * h0 : ℕ) : ℚ) := hprod
  · calc W * H = ((w0 * h0 : ℕ) : ℚ) := hprod
    _ ≤ ((w0 * h0 : ℕ) : ℚ) := le_refl _

theorem partition_covering_sum_le (w h side r c : ℕ) :
    (((_partition w h (r, c)).map fun p => _covering_area p side).sum)
      ≤ ((w : ℚ) * h) := by
  have hle : (((_partition w h (r, c)).map fun p => _covering_area p side).sum)
      ≤ (((_partition w h (r, c)).map fun p => (rectArea p : ℚ)).sum) :=
    List.sum_le_sum fun p _ => covering_area_le_area p side
  have hcast : (((_partition w h (r, c)).map fun p => (rectArea p : ℚ)).sum)
      = ((((_partition w h (r, c)).map rectArea).sum : ℕ) : ℚ) := by
    rw [Nat.cast_list_sum, List.map_map]
    rfl
  have harea : (((_partition w h (r, c)).map rectArea).sum) ≤ w * h := by
    rcases Nat.eq_zero_or_pos r with hr | hr
    · subst hr
      simp [_partition]
    rcases Nat.eq_zero_or_pos c with hc | hc
    · subst hc
      simp [_partition, List.flatMap]
    · exact le_of_eq (partition_area_sum w h r c hr hc)
  calc (((_partition w h (r, c)).map fun p => _covering_area p side).sum)
      ≤ (((_partition w h (r, c)).map fun p => (rectArea p : ℚ)).sum) := hle
  _ = ((((_partition w h (r, c)).map rectArea).sum : ℕ) : ℚ) := hcast
  _ ≤ ((w * h : ℕ) : ℚ) := by exact_mod_cast harea
  _ = (w : ℚ) * h := by push_cast; ring

/-- C4 - For every image with positive dimensions and every candidate grid,
the covering ratio computed in `_get_best_grid` is at most 1, so the
`assert covering_ratio <= 1.0` in the source never fails. -/
theorem c4_covering_ratio_le_one (w h side : ℕ) (grid : ℕ × ℕ)
    (hw : 1 ≤ w) (hh : 1 ≤ h) (hr : 1 ≤ grid.1) (hc : 1 ≤ grid.2) :
    coveringRatio w h side grid ≤ 1 := by
  unfold coveringRatio
  have hpos : (0 : ℚ) < (w : ℚ) * h := by
    have hw' : (0 : ℚ) < w := by exact_mod_cast hw
    have hh' : (0 : ℚ) < h := by exact_mod_cast hh
    positivity
  rw [div_le_one hpos]
  obtain ⟨r, c⟩ := grid
  exact partition_covering_sum_le w h side r c

/-- Witness for C4 at a concrete input. -/
theorem c4_covering_ratio_le_one_witness :
    coveringRatio 800 400 384 (2, 2) ≤ 1 :=
  c4_covering_ratio_le_one 800 400 384 (2, 2) (by decide) (by decide)
    (by decide) (by decide)

/-! ### Exact tiling (C5) -/

/-- A pixel `(x, y)` lies in a rectangle (half-open on the right/bottom, the
convention of `PIL.Image.crop`). -/
def inRect (p : Rect) (x y : ℕ) : Prop :=
  p.left ≤ x ∧ x < p.right ∧ p.upper ≤ y ∧ y < p.lower

/-- Two rectangles share no pixel. -/
def rectDisjoint (p q : Rect) : Prop := ∀ x y, ¬ (inRect p x y ∧ inRect q x y)

theorem cell_left (w h r c row col : ℕ) :
    (cell w h (r, c) row col).left = col * (w / c) := rfl

theorem cell_upper (w h r c row col : ℕ) :
    (cell w h (r, c) row col).upper = row * (h / r) := rfl

theorem cell_right (w h r c row col : ℕ) :
    (cell w h (r, c) row col).right =
      if col = c - 1 then w else (col + 1) * (w / c) := rfl

theorem cell_lower (w h r c row col : ℕ) :
    (cell w h (r, c) row col).lower =
      if row = r - 1 then h else (row + 1) * (h / r) := rfl

theorem disjoint_of_right_le_left (p q : Rect) (hle : p.right ≤ q.left) :
    rectDisjoint p q := by
  intro x y hxy
  obtain ⟨⟨_, hx1, _, _⟩, hx2, _, _, _⟩ := hxy
  omega

theorem disjoint_of_lower_le_upper (p q : Rect) (hle : p.lower ≤ q.upper) :
    rectDisjoint p q := by
  intro x y hxy
  obtain ⟨⟨_, _, _, hy1⟩, _, _, hy2, _⟩ := hxy
  omega

theorem cell_disjoint_col (w h r c row1 row2 col1 col2 : ℕ)
    (h12 : col1 < col2) (h2 : col2 < c) :
    rectDisjoint (cell w h (r, c) row1 col1) (cell w h (r, c) row2 col2) := by
  apply disjoint_of_right_le_left
  rw [cell_right, cell_left, if_neg (by omega : ¬ col1 = c - 1)]
  exact Nat.mul_le_mul_right _ (by omega)

theorem cell_disjoint_row (w h r c row1 row2 col1 col2 : ℕ)
    (h12 : row1 < row2) (h2 : row2 < r) :
    rectDisjoint (cell w h (r, c) row1 col1) (cell w h (r, c) row2 col2) := by
  apply disjoint_of_lower_le_upper
  rw [cell_lower, cell_upper, if_neg (by omega : ¬ row1 = r - 1)]
  exact Nat.mul_le_mul_right _ (by omega)

/-- No two distinct rectangles of `_partition` overlap. -/
theorem partition_pairwise_disjoint (w h r c : ℕ) :
    List.Pairwise rectDisjoint (_partition w h (r, c)) := by
  unfold _partition
  rw [List.flatMap_def, List.pairwise_flatten]
  constructor
  · intro l' hl'
    obtain ⟨row, _, rfl⟩ := List.mem_map.mp hl'
    rw [List.pairwise_map]
    refine List.Pairwise.imp_of_mem ?_ (List.pairwise_lt_range c)
    intro c1 c2 _ hm2 hlt
    exact cell_disjoint_col w h r c row row c1 c2 hlt (List.mem_range.mp hm2)
  · rw [List.pairwise_map]
    refine List.Pairwise.imp_of_mem ?_ (List.pairwise_lt_range r)
    intro r1 r2 _ hm2 hlt x hx y hy
    obtain ⟨c1, _, rfl⟩ := List.mem_map.mp hx
    obtain ⟨c2, _, rfl⟩ := List.mem_map.mp hy
    exact cell_disjoint_row w h r c r1 r2 c1 c2 hlt (List.mem_range.mp hm2)

theorem cell_mem_partition (w h r c row col : ℕ) (hrow : row < r) (hcol : col < c) :
    cell w h (r, c) row col ∈ _partition w h (r, c) := by
  unfold _partition
  exact List.mem_flatMap.mpr ⟨row, List.mem_range.mpr hrow,
    List.mem_map.mpr ⟨col, List.mem_range.mpr hcol, rfl⟩⟩

/-- C5 - The `r*c` rectangles returned by `_partition` exactly tile the image:
pairwise non-overlapping, areas summing to `w*h`, with the last column
extending to `right = w` and the last row to `bottom = h`. -/
theorem c5_partition_exact_tiling (w h r c : ℕ)
    (hw : 1 ≤ w) (hh : 1 ≤ h) (hr : 1 ≤ r) (hc : 1 ≤ c) :
    List.Pairwise rectDisjoint (_partition w h (r, c)) ∧
    ((_partition w h (r, c)).map rectArea).sum = w * h ∧
    (∀ row < r, cell w h (r, c) row (c - 1) ∈ _partition w h (r, c) ∧
      (cell w h (r, c) row (c - 1)).right = w) ∧
    (∀ col < c, cell w h (r, c) (r - 1) col ∈ _partition w h (r, c) ∧
      (cell w h (r, c) (r - 1) col).lower = h) := by
  refine ⟨partition_pairwise_disjoint w h r c, partition_area_sum w h r c hr hc, ?_, ?_⟩
  · intro row hrow
    exact ⟨cell_mem_partition w h r c row (c - 1) hrow (by omega),
      by rw [cell_right, if_pos rfl]⟩
  · intro col hcol
    exact ⟨cell_mem_partition w h r c (r - 1) col (by omega) hcol,
      by rw [cell_lower, if_pos rfl]⟩

/-- Witness for C5 at a concrete input. -/
theorem c5_partition_exact_tiling_witness :
    List.Pairwise rectDisjoint (_partition 5 3 (2, 2)) ∧
    ((_partition 5 3 (2, 2)).map rectArea).sum = 5 * 3 ∧
    (∀ row < 2, cell 5 3 (2, 2) row (2 - 1) ∈ _partition 5 3 (2, 2) ∧
      (cell 5 3 (2, 2) row (2 - 1)).right = 5) ∧
    (∀ col < 2, cell 5 3 (2, 2) (2 - 1) col ∈ _partition 5 3 (2, 2) ∧
      (cell 5 3 (2, 2) (2 - 1) col).lower = 3) :=
  c5_partition_exact_tiling 5 3 2 2 (by decide) (by decide) (by decide) (by decide)

/-! ## Placeholder builder (`construct_image_placeholders`, C3) -/

/-- The structural placeholder token kinds. In the source each kind is an
opaque tokenizer id fetched by `get_token_value`; only their identities
matter here. `pre` is the image-prefix token and `stop` the image-end
token. -/
inductive PTok where
  | start
  | atom
  | pre
  | colSep
  | rowSep
  | stop
deriving DecidableEq, Repr

/-- Embedding of `construct_image_placeholders(grid)`: `START, ATOM, PREFIX`,
then (only when `rows*cols > 1`) one `ATOM` per tile with `COL_SEP` between
columns and `ROW_SEP` between rows, then `END`. -/
def construct_image_placeholders (grid : ℕ × ℕ) : List PTok :=
  [PTok.start, PTok.atom, PTok.pre] ++
    (if grid.1 * grid.2 > 1 then
      (List.range grid.1).flatMap fun r =>
        ((List.range grid.2).flatMap fun c =>
          PTok.atom :: (if c < grid.2 - 1 then [PTok.colSep] else [])) ++
        (if r < grid.1 - 1 then [PTok.rowSep] else [])
     else []) ++ [PTok.stop]

theorem inner_row_length (n b : ℕ) :
    ((List.range n).flatMap fun c =>
      PTok.atom :: (if c < b then [PTok.colSep] else [])).length = n + min n b := by
  induction n with
  | zero => simp
  | succ k ih =>
    rw [List.range_succ, List.flatMap_append, List.length_append, ih]
    simp only [List.flatMap_cons, List.flatMap_nil, List.append_nil]
    by_cases hkb : k < b
    · rw [if_pos hkb]
      simp only [List.length_cons, List.length_nil]
      omega
    · rw [if_neg hkb]
      simp only [List.length_cons, List.length_nil]
      omega

theorem outer_rows_length (r b K : ℕ) (g : ℕ → List PTok)
    (hg : ∀ i, (g i).length = K) :
    ((List.range r).flatMap fun i =>
      g i ++ (if i < b then [PTok.rowSep] else [])).length = r * K + min r b := by
  induction r with
  | zero => simp
  | succ k ih =>
    rw [List.range_succ, List.flatMap_append, List.length_append, ih]
    by_cases hkb : k < b
    · simp only [List.flatMap_cons, List.flatMap_nil, List.append_nil, if_pos hkb,
        List.length_append, hg k, List.length_cons, List.length_nil]
      have : (k + 1) * K = k * K + K := by ring
      omega
    · simp only [List.flatMap_cons, List.flatMap_nil, List.append_nil, if_neg hkb,
        List.length_append, hg k, List.length_cons, List.length_nil]
      have : (k + 1) * K = k * K + K := by ring
      omega

/-- C3 - The placeholder sequence for grid `(r,c)` has length 4 when
`r*c = 1` and `4 + r*c + r*(c-1) + (r-1)` when `r*c > 1`; in particular
`(1,1) ↦ 4`, `(2,2) ↦ 11`, `(1,3) ↦ 9`; it begins with `START, ATOM, PREFIX`
and ends with `END`. -/
theorem c3_placeholder_length (r c : ℕ) (hr : 1 ≤ r) (hc : 1 ≤ c) :
    (r * c = 1 → (construct_image_placeholders (r, c)).length = 4) ∧
    (1 < r * c → (construct_image_placeholders (r, c)).length
        = 4 + r * c + r * (c - 1) + (r - 1)) ∧
    (construct_image_placeholders (1, 1)).length = 4 ∧
    (construct_image_placeholders (2, 2)).length = 11 ∧
    (construct_image_placeholders (1, 3)).length = 9 ∧
    (construct_image_placeholders (r, c)).take 3 = [PTok.start, PTok.atom, PTok.pre] ∧
    (construct_image_placeholders (r, c)).getLast? = some PTok.stop := by
  refine ⟨?_, ?_, by decide, by decide, by decide, ?_, ?_⟩
  · intro h1
    have hr1 : r = 1 := by
      rcases Nat.eq_one_of_mul_eq_one_right h1 with h
      exact h
    have hc1 : c = 1 := Nat.eq_one_of_mul_eq_one_left h1
    subst hr1; subst hc1
    decide
  · intro h1
    unfold construct_image_placeholders
    rw [if_pos (by simpa using h1)]
    rw [List.length_append, List.length_append]
    have hinner : ∀ i : ℕ,
        (((List.range c).flatMap fun j =>
          PTok.atom :: (if j < c - 1 then [PTok.colSep] else []))).length
          = c + (c - 1) := by
      intro _
      rw [inner_row_length]
      have : min c (c - 1) = c - 1 := Nat.min_eq_right (by omega)
      omega
    rw [outer_rows_length r (r - 1) (c + (c - 1)) _ (fun i => hinner i)]
    have hmin : min r (r - 1) = r - 1 := Nat.min_eq_right (by omega)
    have hmul : r * (c + (c - 1)) = r * c + r * (c - 1) := Nat.mul_add r c (c - 1)
    simp only [List.length_cons, List.length_nil, List.length_singleton]
    omega
  · unfold construct_image_placeholders
    rfl
  · unfold construct_image_placeholders
    exact List.getLast?_concat _

/-- Witness for C3 at a concrete input. -/
theorem c3_placeholder_length_witness :
    (2 * 2 = 1 → (construct_image_placeholders (2, 2)).length = 4) ∧
    (1 < 2 * 2 → (construct_image_placeholders (2, 2)).length
        = 4 + 2 * 2 + 2 * (2 - 1) + (2 - 1)) ∧
    (construct_image_placeholders (1, 1)).length = 4 ∧
    (construct_image_placeholders (2, 2)).length = 11 ∧
    (construct_image_placeholders (1, 3)).length = 9 ∧
    (construct_image_placeholders (2, 2)).take 3 = [PTok.start, PTok.atom, PTok.pre] ∧
    (construct_image_placeholders (2, 2)).getLast? = some PTok.stop :=
  c3_placeholder_length 2 2 (by decide) (by decide)

/-! ## Grid selection (`_get_best_grid`, C1) -/

/-- The candidate grid list enumerated by `_get_best_grid`:
all `(i, j)` with `1 ≤ i, j ≤ max_partition` and `i * j ≤ max_partition`,
in row-major enumeration order. -/
def candidateGrids (maxPartition : ℕ) : List (ℕ × ℕ) :=
  (List.range' 1 maxPartition).flatMap fun i =>
    (List.range' 1 maxPartition).flatMap fun j =>
      if i * j ≤ maxPartition then [(i, j)] else []

/-- Strict lexicographic order on sort keys (pairs of rationals). -/
def lexLt (a b : ℚ × ℚ) : Prop := a.1 < b.1 ∨ (a.1 = b.1 ∧ a.2 < b.2)

instance decidableLexLt : DecidableRel lexLt := fun a b => by
  unfold lexLt
  infer_instance

theorem lexLt_irrefl (a : ℚ × ℚ) : ¬ lexLt a a := by
  unfold lexLt
  simp

theorem lexLt_trans {a b c : ℚ × ℚ} (hab : lexLt a b) (hbc : lexLt b c) :
    lexLt a c := by
  unfold lexLt at *
  rcases hab with h | ⟨he, h⟩ <;> rcases hbc with h' | ⟨he', h'⟩
  · exact Or.inl (lt_trans h h')
  · exact Or.inl (he' ▸ h)
  · exact Or.inl (he ▸ h')
  · exact Or.inr ⟨he.trans he', lt_trans h h'⟩

theorem lexLt_trichotomy (a b : ℚ × ℚ) : lexLt a b ∨ a = b ∨ lexLt b a := by
  unfold lexLt
  rcases lt_trichotomy a.1 b.1 with h | h | h
  · exact Or.inl (Or.inl h)
  · rcases lt_trichotomy a.2 b.2 with h' | h' | h'
    · exact Or.inl (Or.inr ⟨h, h'⟩)
    · exact Or.inr (Or.inl (Prod.ext h h'))
    · exact Or.inr (Or.inr (Or.inr ⟨h.symm, h'⟩))
  · exact Or.inr (Or.inr (Or.inl h))

/-- `sorted(l, key=key)[0]` for a stable sort: the first element of `l`
attaining the lexicographically least key (`none` on the empty list). -/
def sortedFirst {α : Type} (key : α → ℚ × ℚ) : List α → Option α
  | [] => none
  | a :: l =>
    some (l.foldl (fun best x => if lexLt (key x) (key best) then x else best) a)

theorem foldlBest_mem {α : Type} (key : α → ℚ × ℚ) (l : List α) (a : α) :
    l.foldl (fun best x => if lexLt (key x) (key best) then x else best) a ∈ a :: l := by
  induction l generalizing a with
  | nil => simp
  | cons x t ih =>
    rw [List.foldl_cons]
    by_cases hx : lexLt (key x) (key a)
    · rw [if_pos hx]
      exact List.mem_cons_of_mem _ (ih x)
    · rw [if_neg hx]
      rcases List.mem_cons.mp (ih a) with h | h
      · rw [h]
        exact List.mem_cons_self _ _
      · exact List.mem_cons_of_mem _ (List.mem_cons_of_mem _ h)

theorem foldlBest_min {α : Type} (key : α → ℚ × ℚ) (l : List α) (a : α) :
    ∀ y ∈ a :: l, ¬ lexLt (key y)
      (key (l.foldl (fun best x => if lexLt (key x) (key best) then x else best) a)) := by
  induction l generalizing a with
  | nil =>
    intro y hy
    rw [List.mem_singleton] at hy
    subst hy
    exact lexLt_irrefl _
  | cons x t ih =>
    intro y hy
    rw [List.foldl_cons]
    by_cases hx : lexLt (key x) (key a)
    · rw [if_pos hx]
      rcases List.mem_cons.mp hy with rfl | hy'
      · intro hcontra
        exact ih x x (List.mem_cons_self _ _) (lexLt_trans hx hcontra)
      · exact ih x y hy'
    · rw [if_neg hx]
      rcases List.mem_cons.mp hy with rfl | hy'
      · exact ih y y (List.mem_cons_self _ _)
      · rcases List.mem_cons.mp hy' with rfl | hy''
        · intro hcontra
          rcases lexLt_trichotomy (key y) (key a) with h1 | h1 | h1
          · exact hx h1
          · exact ih a a (List.mem_cons_self _ _) (h1 ▸ hcontra)
          · exact ih a a (List.mem_cons_self _ _) (lexLt_trans h1 hcontra)
        · exact ih a y (List.mem_cons_of_mem _ hy'')

theorem sortedFirst_eq_none {α : Type} (key : α → ℚ × ℚ) (l : List α) :
    sortedFirst key l = none ↔ l = [] := by
  cases l with
  | nil => simp [sortedFirst]
  | cons a t => simp [sortedFirst]

theorem sortedFirst_mem {α : Type} (key : α → ℚ × ℚ) {l : List α} {a : α}
    (h : sortedFirst key l = some a) : a ∈ l := by
  cases l with
  | nil => simp [sortedFirst] at h
  | cons b t =>
    simp only [sortedFirst, Option.some.injEq] at h
    rw [← h]
    exact foldlBest_mem key t b

theorem sortedFirst_min {α : Type} (key : α → ℚ × ℚ) {l : List α} {a : α}
    (h : sortedFirst key l = some a) : ∀ y ∈ l, ¬ lexLt (key y) (key a) := by
  cases l with
  | nil => simp [sortedFirst] at h
  | cons b t =>
    simp only [sortedFirst, Option.some.injEq] at h
    rw [← h]
    exact foldlBest_min key t b

/-- The `all_grids` list of `_get_best_grid`: each candidate grid paired with
its covering ratio. -/
def allGrids (w h side maxPartition : ℕ) : List ((ℕ × ℕ) × ℚ) :=
  (candidateGrids maxPartition).map fun g => (g, coveringRatio w h side g)

/-- The `good_grids` list of `_get_best_grid`: entries whose covering ratio
exceeds the threshold. -/
def goodGrids (w h side maxPartition : ℕ) (tau : ℚ) : List ((ℕ × ℕ) × ℚ) :=
  (allGrids w h side maxPartition).filter fun x => decide (tau < x.2)

/-- Sort key for the good branch: `(r*c, -covering_ratio)`. -/
def goodKey (x : (ℕ × ℕ) × ℚ) : ℚ × ℚ := (((x.1.1 * x.1.2 : ℕ) : ℚ), -x.2)

/-- Sort key for the fallback branch: `(-covering_ratio, r*c)`. -/
def allKey (x : (ℕ × ℕ) × ℚ) : ℚ × ℚ := (-x.2, ((x.1.1 * x.1.2 : ℕ) : ℚ))

/-- Embedding of `_get_best_grid(img, side)`: if any grid is good, the first
element of the good list stably sorted by `(r*c, -ratio)`; otherwise the first
element of the full list stably sorted by `(-ratio, r*c)`. -/
def _get_best_grid (w h side maxPartition : ℕ) (tau : ℚ) : Option (ℕ × ℕ) :=
  match sortedFirst goodKey (goodGrids w h side maxPartition tau) with
  | some x => some x.1
  | none => (sortedFirst allKey (allGrids w h side maxPartition)).map Prod.fst

theorem mem_candidateGrids (N : ℕ) (g : ℕ × ℕ) :
    g ∈ candidateGrids N ↔ 1 ≤ g.1 ∧ 1 ≤ g.2 ∧ g.1 * g.2 ≤ N := by
  unfold candidateGrids
  simp only [List.mem_flatMap, List.mem_range'_1]
  constructor
  · rintro ⟨i, ⟨hi1, hi2⟩, j, ⟨hj1, hj2⟩, hg⟩
    split_ifs at hg with hij
    · rcases List.mem_singleton.mp hg with rfl
      exact ⟨hi1, hj1, hij⟩
    · simp at hg
  · rintro ⟨h1, h2, h3⟩
    refine ⟨g.1, ⟨h1, ?_⟩, g.2, ⟨h2, ?_⟩, ?_⟩
    · have : g.1 ≤ g.1 * g.2 := Nat.le_mul_of_pos_right _ (by omega)
      omega
    · have : g.2 ≤ g.1 * g.2 := Nat.le_mul_of_pos_left _ (by omega)
      omega
    · rw [if_pos h3]
      exact List.mem_singleton.mpr rfl

theorem mem_allGrids (w h side N : ℕ) (x : (ℕ × ℕ) × ℚ) :
    x ∈ allGrids w h side N ↔
      ∃ g ∈ candidateGrids N, x = (g, coveringRatio w h side g) := by
  unfold allGrids
  rw [List.mem_map]
  constructor
  · rintro ⟨g, hg, rfl⟩
    exact ⟨g, hg, rfl⟩
  · rintro ⟨g, hg, rfl⟩
    exact ⟨g, hg, rfl⟩

theorem mem_goodGrids (w h side N : ℕ) (tau : ℚ) (x : (ℕ × ℕ) × ℚ) :
    x ∈ goodGrids w h side N tau ↔
      x ∈ allGrids w h side N ∧ tau < x.2 := by
  unfold goodGrids
  rw [List.mem_filter]
  simp

/-- C1 - `_get_best_grid` obeys the spec's selection rule: it returns a
candidate grid with `r*c ≤ max_partition`; if some candidate is good
(covering ratio above the threshold), the returned grid is good with minimal
`r*c` and, among good grids of that product, maximal covering ratio;
otherwise the returned grid has maximal covering ratio over all candidates
and, among those of that ratio, minimal `r*c`. -/
theorem c1_best_grid_selection (w h side N : ℕ) (tau : ℚ)
    (hw : 1 ≤ w) (hh : 1 ≤ h) (hN : 1 ≤ N) :
    ∃ g : ℕ × ℕ, _get_best_grid w h side N tau = some g ∧
      g ∈ candidateGrids N ∧ g.1 * g.2 ≤ N ∧
      ((∃ g1 ∈ candidateGrids N, tau < coveringRatio w h side g1) →
        (tau < coveringRatio w h side g ∧
        ∀ g1 ∈ candidateGrids N, tau < coveringRatio w h side g1 →
          (g.1 * g.2 ≤ g1.1 * g1.2 ∧
            (g1.1 * g1.2 = g.1 * g.2 →
              coveringRatio w h side g1 ≤ coveringRatio w h side g)))) ∧
      ((∀ g1 ∈ candidateGrids N, coveringRatio w h side g1 ≤ tau) →
        ∀ g1 ∈ candidateGrids N,
          (coveringRatio w h side g1 ≤ coveringRatio w h side g ∧
            (coveringRatio w h side g1 = coveringRatio w h side g →
              g.1 * g.2 ≤ g1.1 * g1.2))) := by
  rcases hgood : sortedFirst goodKey (goodGrids w h side N tau) with _ | x
  · -- no good grid: fallback branch
    have hempty : goodGrids w h side N tau = [] := (sortedFirst_eq_none _ _).mp hgood
    have hnogood : ∀ g1 ∈ candidateGrids N, coveringRatio w h side g1 ≤ tau := by
      intro g1 hg1
      by_contra hcon
      push_neg at hcon
      have hmem : (g1, coveringRatio w h side g1) ∈ goodGrids w h side N tau :=
        (mem_goodGrids w h side N tau _).mpr
          ⟨(mem_allGrids w h side N _).mpr ⟨g1, hg1, rfl⟩, hcon⟩
      rw [hempty] at hmem
      exact absurd hmem (List.not_mem_nil _)
    have h11 : ((1, 1) : ℕ × ℕ) ∈ candidateGrids N :=
      (mem_candidateGrids N (1, 1)).mpr ⟨le_refl 1, le_refl 1, by omega⟩
    have hallne : allGrids w h side N ≠ [] := by
      intro hnil
      have hmem : ((1, 1), coveringRatio w h side (1, 1)) ∈ allGrids w h side N :=
        (mem_allGrids w h side N _).mpr ⟨(1, 1), h11, rfl⟩
      rw [hnil] at hmem
      exact absurd hmem (List.not_mem_nil _)
    rcases hall : sortedFirst allKey (allGrids w h side N) with _ | x
    · exact absurd ((sortedFirst_eq_none _ _).mp hall) hallne
    · obtain ⟨g, hgmem, rfl⟩ := (mem_allGrids w h side N _).mp (sortedFirst_mem _ hall)
      refine ⟨g, ?_, hgmem, ((mem_candidateGrids N g).mp hgmem).2.2, ?_, ?_⟩
      · unfold _get_best_grid
        rw [hgood, hall]
        rfl
      · rintro ⟨g1, hg1, hg1r⟩
        exact absurd (hnogood g1 hg1) (not_le.mpr hg1r)
      · intro _ g1 hg1
        have hmin := sortedFirst_min allKey hall (g1, coveringRatio w h side g1)
          ((mem_allGrids w h side N _).mpr ⟨g1, hg1, rfl⟩)
        unfold allKey lexLt at hmin
        push_neg at hmin
        dsimp only at hmin
        constructor
        · exact neg_le_neg_iff.mp hmin.1
        · intro hreq
          exact_mod_cast hmin.2 (neg_inj.mpr hreq)
  · -- some good grid exists: good branch
    obtain ⟨hxall, hxgood⟩ :=
      (mem_goodGrids w h side N tau _).mp (sortedFirst_mem _ hgood)
    obtain ⟨g, hgmem, rfl⟩ := (mem_allGrids w h side N _).mp hxall
    refine ⟨g, ?_, hgmem, ((mem_candidateGrids N g).mp hgmem).2.2, ?_, ?_⟩
    · unfold _get_best_grid
      rw [hgood]
    · intro _
      refine ⟨hxgood, ?_⟩
      intro g1 hg1 hr1
      have hmin := sortedFirst_min goodKey hgood (g1, coveringRatio w h side g1)
        ((mem_goodGrids w h side N tau _).mpr
          ⟨(mem_allGrids w h side N _).mpr ⟨g1, hg1, rfl⟩, hr1⟩)
      unfold goodKey lexLt at hmin
      push_neg at hmin
      dsimp only at hmin
      constructor
      · exact_mod_cast hmin.1
      · intro hpeq
        have hpq : ((g1.1 * g1.2 : ℕ) : ℚ) = ((g.1 * g.2 : ℕ) : ℚ) := by
          exact_mod_cast hpeq
        have h2 := hmin.2 hpq
        linarith
    · intro hcontra
      exact absurd (hcontra g hgmem) (not_le.mpr hxgood)

/-- Witness for C1 at a concrete input. -/
theorem c1_best_grid_selection_witness :
    ∃ g : ℕ × ℕ, _get_best_grid 800 400 384 9 (9 / 10) = some g ∧
      g ∈ candidateGrids 9 ∧ g.1 * g.2 ≤ 9 ∧
      ((∃ g1 ∈ candidateGrids 9, (9 / 10 : ℚ) < coveringRatio 800 400 384 g1) →
        ((9 / 10 : ℚ) < coveringRatio 800 400 384 g ∧
        ∀ g1 ∈ candidateGrids 9, (9 / 10 : ℚ) < coveringRatio 800 400 384 g1 →
          (g.1 * g.2 ≤ g1.1 * g1.2 ∧
            (g1.1 * g1.2 = g.1 * g.2 →
              coveringRatio 800 400 384 g1 ≤ coveringRatio 800 400 384 g)))) ∧
      ((∀ g1 ∈ candidateGrids 9, coveringRatio 800 400 384 g1 ≤ (9 / 10 : ℚ)) →
        ∀ g1 ∈ candidateGrids 9,
          (coveringRatio 800 400 384 g1 ≤ coveringRatio 800 400 384 g ∧
            (coveringRatio 800 400 384 g1 = coveringRatio 800 400 384 g →
              g.1 * g.2 ≤ g1.1 * g1.2))) :=
  c1_best_grid_selection 800 400 384 9 (9 / 10) (by decide) (by decide) (by decide)

/-! ## Sequence composition (`merge_multimodal` of `modeling_ovis.py`, C2/C6) -/

/-- `IGNORE_INDEX` from `ovis.util.constants` (the same reserved label value
appears as `IGNORE_ID = -100` in `processing_ovis.py`). -/
def IGNORE_INDEX : ℤ := -100

/-- Modelled from the spec: `IMAGE_TOKEN_INDEX`, the sentinel token id marking
an image position inside a text sample, is imported from
`ovis.util.constants`, a module not among the sources; only its identity
matters for the properties below. -/
def IMAGE_TOKEN_INDEX : ℤ := -200

/-- One token's embedding vector (a row of a 2-D tensor), modelled as a list
of exact rationals. -/
abbrev Emb := List ℚ

/-- `torch.where(torch.eq(text_input_id, IMAGE_TOKEN_INDEX))[0]`: the indices
of the sentinel token, in increasing order. -/
def sentinelPositions (ids : List ℤ) : List ℕ :=
  (List.range ids.length).filter fun i => decide (ids.getD i 0 = IMAGE_TOKEN_INDEX)

/-- `self.get_wte()(torch.masked_fill(text_input_id, image_token_mask, 0))`:
the text embedding after masking the sentinel id to 0. -/
def textEmbedOf (wte : ℤ → Emb) (ids : List ℤ) : List Emb :=
  ids.map fun t => wte (if t = IMAGE_TOKEN_INDEX then 0 else t)

/-- `torch.sum(visual_embed * 0.0)`: every entry of the visual payload
multiplied by zero, then summed into one scalar. -/
def zeroSum (visualEmbed : List (List Emb)) : ℚ :=
  (visualEmbed.map fun g => (g.map fun e => (e.map fun v => v * 0).sum).sum).sum

/-- The splice loop of `merge_multimodal`: walk the sentinel positions in
order; before each sentinel emit the text span strictly between the previous
sentinel and this one; at each sentinel emit the next visual group in full
(mask all true, labels all `IGNORE_INDEX`); after the last sentinel emit the
trailing text span. `start` is `prev_image_token_position + 1`. Returns
`none` when the visual groups run out before the positions do (an index
error in the source). -/
def spliceParts (textEmbed : List Emb) (textLabel : List ℤ) (textMask : List Bool) :
    List ℕ → List (List Emb) → ℕ → Option (List Emb × List Bool × List ℤ)
  | [], _, start =>
    some (if start < textEmbed.length then
        (textEmbed.drop start, textMask.drop start, textLabel.drop start)
      else ([], [], []))
  | _ :: _, [], _ => none
  | p :: ps, g :: gs, start =>
    match spliceParts textEmbed textLabel textMask ps gs (p + 1) with
    | none => none
    | some (e, m, lb) =>
      some ((textEmbed.drop start).take (p - start) ++ g ++ e,
        (textMask.drop start).take (p - start) ++ List.replicate g.length true ++ m,
        (textLabel.drop start).take (p - start) ++ List.replicate g.length IGNORE_INDEX ++ lb)

/-- Per-sample embedding of the loop body of `merge_multimodal`. When the
sample has sentinel positions they are spliced against the visual groups;
otherwise the text triple is returned unchanged, except that in training
mode the scalar `torch.sum(visual_embed * 0.0)` is broadcast-added to every
entry of the text embedding. -/
def mergeSample (wte : ℤ → Emb) (ids labels : List ℤ) (mask : List Bool)
    (visualEmbed : List (List Emb)) (training : Bool) :
    Option (List Emb × List Bool × List ℤ) :=
  if (sentinelPositions ids).length > 0 then
    spliceParts (textEmbedOf wte ids) labels mask (sentinelPositions ids) visualEmbed 0
  else
    some (if training then
        ((textEmbedOf wte ids).map fun e => e.map fun v => v + zeroSum visualEmbed,
          mask, labels)
      else (textEmbedOf wte ids, mask, labels))

theorem sentinelPositions_sorted (ids : List ℤ) :
    List.Pairwise (· < ·) (sentinelPositions ids) :=
  (List.pairwise_lt_range ids.length).filter _

theorem sentinelPositions_lt_length (ids : List ℤ) :
    ∀ q ∈ sentinelPositions ids, q < ids.length := by
  intro q hq
  exact List.mem_range.mp (List.mem_of_mem_filter hq)

theorem spliceParts_spec (textEmbed : List Emb) (textLabel : List ℤ)
    (textMask : List Bool) (positions : List ℕ) (groups : List (List Emb)) (start : ℕ)
    (hlen : positions.length = groups.length)
    (hsorted : List.Pairwise (· < ·) positions)
    (hlt : ∀ q ∈ positions, q < textEmbed.length)
    (hstart : ∀ q ∈ positions, start ≤ q)
    (hstart0 : start ≤ textEmbed.length)
    (hml : textMask.length = textEmbed.length)
    (hll : textLabel.length = textEmbed.length) :
    ∃ e m lb,
      spliceParts textEmbed textLabel textMask positions groups start = some (e, m, lb) ∧
      m.length = e.length ∧ lb.length = e.length ∧
      e.length + start + positions.length
        = textEmbed.length + (groups.map List.length).sum := by
  induction positions generalizing groups start with
  | nil =>
    have hg : groups = [] := List.length_eq_zero.mp (hlen.symm ▸ rfl)
    subst hg
    by_cases hs : start < textEmbed.length
    · refine ⟨textEmbed.drop start, textMask.drop start, textLabel.drop start,
        by simp [spliceParts, if_pos hs], ?_, ?_, ?_⟩
      · simp [List.length_drop, hml]
      · simp [List.length_drop, hll]
      · simp only [List.length_drop, List.length_nil, List.map_nil, List.sum_nil]
        omega
    · refine ⟨[], [], [], by simp [spliceParts, if_neg hs], rfl, rfl, ?_⟩
      simp only [List.length_nil, List.map_nil, List.sum_nil]
      omega
  | cons p ps ih =>
    cases groups with
    | nil => simp at hlen
    | cons g gs =>
      have hp_lt : p < textEmbed.length := hlt p (List.mem_cons_self _ _)
      have hp_ge : start ≤ p := hstart p (List.mem_cons_self _ _)
      have hhead : ∀ q ∈ ps, p < q := (List.pairwise_cons.mp hsorted).1
      obtain ⟨e, m, lb, heq, hm, hlb, hlen'⟩ := ih gs (p + 1)
        (by simpa using hlen)
        (List.pairwise_cons.mp hsorted).2
        (fun q hq => hlt q (List.mem_cons_of_mem _ hq))
        (fun q hq => hhead q hq)
        (by omega)
      refine ⟨(textEmbed.drop start).take (p - start) ++ g ++ e,
        (textMask.drop start).take (p - start) ++ List.replicate g.length true ++ m,
        (textLabel.drop start).take (p - start) ++ List.replicate g.length IGNORE_INDEX ++ lb,
        ?_, ?_, ?_, ?_⟩
      · simp [spliceParts, heq]
      · simp only [List.length_append, List.length_take, List.length_drop,
          List.length_replicate, hml]
        omega
      · simp only [List.length_append, List.length_take, List.length_drop,
          List.length_replicate, hll]
        omega
      · simp only [List.length_append, List.length_take, List.length_drop,
          List.length_cons, List.map_cons, List.sum_cons]
        omega

/-- C2 - For every sample whose sentinel count equals the number of visual
groups supplied, `merge_multimodal`'s per-sample merge returns embedding,
mask and label sequences of one common length, equal to
`text_length - sentinel_count + sum of visual group lengths`. -/
theorem c2_merge_lengths (wte : ℤ → Emb) (ids labels : List ℤ) (mask : List Bool)
    (visualEmbed : List (List Emb)) (training : Bool)
    (hcount : (sentinelPositions ids).length = visualEmbed.length)
    (hml : mask.length = ids.length)
    (hll : labels.length = ids.length) :
    ∃ e m lb, mergeSample wte ids labels mask visualEmbed training = some (e, m, lb) ∧
      m.length = e.length ∧ lb.length = e.length ∧
      e.length + (sentinelPositions ids).length
        = ids.length + (visualEmbed.map List.length).sum := by
  have htext : (textEmbedOf wte ids).length = ids.length := List.length_map _ _
  by_cases hpos : (sentinelPositions ids).length > 0
  · obtain ⟨e, m, lb, heq, hm, hlb, hfinal⟩ := spliceParts_spec
      (textEmbedOf wte ids) labels mask (sentinelPositions ids) visualEmbed 0
      hcount (sentinelPositions_sorted ids)
      (fun q hq => htext ▸ sentinelPositions_lt_length ids q hq)
      (fun q _ => Nat.zero_le q) (Nat.zero_le _)
      (hml.trans htext.symm) (hll.trans htext.symm)
    refine ⟨e, m, lb, ?_, hm, hlb, ?_⟩
    · rw [mergeSample, if_pos hpos]
      exact heq
    · omega
  · have hnil : sentinelPositions ids = [] :=
      List.length_eq_zero.mp (by omega)
    have hgroups : visualEmbed = [] := by
      apply List.length_eq_zero.mp
      omega
    subst hgroups
    rcases training with _ | _
    · refine ⟨textEmbedOf wte ids, mask, labels, ?_, ?_, ?_, ?_⟩
      · rw [mergeSample, if_neg hpos]
        rfl
      · rw [hml, htext]
      · rw [hll, htext]
      · simp only [hnil, List.length_nil, List.map_nil, List.sum_nil]
        omega
    · refine ⟨(textEmbedOf wte ids).map fun e => e.map fun v => v + zeroSum [],
        mask, labels, ?_, ?_, ?_, ?_⟩
      · rw [mergeSample, if_neg hpos]
        rfl
      · rw [hml, ← htext, List.length_map]
      · rw [hll, ← htext, List.length_map]
      · simp only [hnil, List.length_nil, List.map_nil, List.sum_nil, List.length_map]
        omega

/-- Witness for C2 at a concrete input: one sentinel, one visual group of
two embedding vectors. -/
theorem c2_merge_lengths_witness :
    ∃ e m lb, mergeSample (fun t => [(t : ℚ)]) [4, IMAGE_TOKEN_INDEX, 5] [7, 8, 9]
        [true, true, true] [[[10], [11]]] false = some (e, m, lb) ∧
      m.length = e.length ∧ lb.length = e.length ∧
      e.length + (sentinelPositions [4, IMAGE_TOKEN_INDEX, 5]).length
        = ([4, IMAGE_TOKEN_INDEX, 5] : List ℤ).length
          + ([[[10], [11]]].map (List.length (α := Emb))).sum :=
  c2_merge_lengths (fun t => [(t : ℚ)]) [4, IMAGE_TOKEN_INDEX, 5] [7, 8, 9]
    [true, true, true] [[[10], [11]]] false (by decide) (by decide) (by decide)

/-- C6 - For a training-mode sample with no sentinel token and an all-zero
visual payload, the returned embedding is the text embedding with the scalar
`torch.sum(visual_embed * 0.0)` broadcast-added (the payload stays reachable
through this addition); that scalar is exactly zero, so the merged embedding
is numerically identical to the text-only embedding. -/
theorem c6_zero_payload_identity (wte : ℤ → Emb) (ids labels : List ℤ)
    (mask : List Bool) (visualEmbed : List (List Emb))
    (hnosent : sentinelPositions ids = [])
    (hzero : ∀ g ∈ visualEmbed, ∀ e ∈ g, ∀ v ∈ e, v = (0 : ℚ)) :
    zeroSum visualEmbed = 0 ∧
    mergeSample wte ids labels mask visualEmbed true
      = some ((textEmbedOf wte ids).map fun e => e.map fun v => v + zeroSum visualEmbed,
          mask, labels) ∧
    ((textEmbedOf wte ids).map fun e => e.map fun v => v + zeroSum visualEmbed)
      = textEmbedOf wte ids := by
  have hzs : zeroSum visualEmbed = 0 := by
    apply List.sum_eq_zero
    intro x hx
    obtain ⟨gr, _, rfl⟩ := List.mem_map.mp hx
    apply List.sum_eq_zero
    intro y hy
    obtain ⟨e, _, rfl⟩ := List.mem_map.mp hy
    apply List.sum_eq_zero
    intro z hz
    obtain ⟨v, _, rfl⟩ := List.mem_map.mp hz
    exact mul_zero v
  refine ⟨hzs, ?_, ?_⟩
  · rw [mergeSample, if_neg (by rw [hnosent]; simp)]
    rfl
  · rw [hzs]
    simp

/-- Witness for C6 at a concrete input. -/
theorem c6_zero_payload_identity_witness :
    zeroSum [[[(0 : ℚ)], [0]]] = 0 ∧
    mergeSample (fun t => [(t : ℚ)]) [3, 4] [7, 8] [true, true] [[[(0 : ℚ)], [0]]] true
      = some ((textEmbedOf (fun t => [(t : ℚ)]) [3, 4]).map
          (fun e => e.map fun v => v + zeroSum [[[(0 : ℚ)], [0]]]),
          [true, true], [7, 8]) ∧
    ((textEmbedOf (fun t => [(t : ℚ)]) [3, 4]).map
        (fun e => e.map fun v => v + zeroSum [[[(0 : ℚ)], [0]]]))
      = textEmbedOf (fun t => [(t : ℚ)]) [3, 4] :=
  c6_zero_payload_identity (fun t => [(t : ℚ)]) [3, 4] [7, 8] [true, true]
    [[[(0 : ℚ)], [0]]] (by decide) (by decide)

/-! ## Placeholder substitution in `OvisProcessor.__call__` (C7/C10) -/

/-- `new_ids` of the replacement loop: every occurrence of the image token in
one sample's ids is replaced by the (single) placeholder sequence. -/
def replaceIds (imageTokenId : ℤ) (ph : List ℤ) (ids : List ℤ) : List ℤ :=
  ids.flatMap fun t => if t = imageTokenId then ph else [t]

/-- `new_attn` of the replacement loop: sentinel positions receive `1` for
every placeholder token; other positions keep their attention value. -/
def replaceAttn (imageTokenId : ℤ) (ph : List ℤ) (ids attn : List ℤ) : List ℤ :=
  (ids.zip attn).flatMap fun ta =>
    if ta.1 = imageTokenId then List.replicate ph.length 1 else [ta.2]

/-- The per-sample loop of `OvisProcessor.__call__` over
`zip(input_ids, attention_mask)`. `phs?` is
`image_features["image_placeholders"]` when images were processed (`none`
otherwise); `idx` is the running image index. A sample containing the image
token consumes placeholder list `idx` — the same list for every sentinel
occurrence in that sample — and advances `idx` by one, or raises when `idx`
is out of range. Samples without the image token (or any call without
processed images) pass through unchanged. -/
def processSamples (imageTokenId : ℤ) (phs? : Option (List (List ℤ))) :
    List (List ℤ × List ℤ) → ℕ → Except String (List (List ℤ × List ℤ))
  | [], _ => .ok []
  | (ids, attn) :: rest, idx =>
    match phs? with
    | some phs =>
      if imageTokenId ∈ ids then
        if idx < phs.length then
          match processSamples imageTokenId phs? rest (idx + 1) with
          | .error e => .error e
          | .ok out => .ok ((replaceIds imageTokenId (phs.getD idx []) ids,
              replaceAttn imageTokenId (phs.getD idx []) ids attn) :: out)
        else
          .error "Mismatch between the images you provided and the number of placeholder present in the text"
      else
        match processSamples imageTokenId phs? rest idx with
        | .error e => .error e
        | .ok out => .ok ((ids, attn) :: out)
    | none =>
      match processSamples imageTokenId phs? rest idx with
      | .error e => .error e
      | .ok out => .ok ((ids, attn) :: out)

/-- With no processed images the whole batch passes through unchanged: no
error is raised even if sentinel tokens are present. -/
theorem processSamples_none (tok : ℤ) (samples : List (List ℤ × List ℤ)) (idx : ℕ) :
    processSamples tok none samples idx = .ok samples := by
  induction samples generalizing idx with
  | nil => rfl
  | cons s rest ih =>
    obtain ⟨ids, attn⟩ := s
    simp [processSamples, ih]

/-- When images were processed, the loop raises exactly when the number of
sentinel-containing samples exceeds the number of placeholder lists still
available. -/
theorem processSamples_error_iff (tok : ℤ) (phs : List (List ℤ))
    (samples : List (List ℤ × List ℤ)) (idx : ℕ) :
    (∃ e, processSamples tok (some phs) samples idx = .error e) ↔
      (phs.length < idx + samples.countP (fun s => decide (tok ∈ s.1)) ∧
        1 ≤ samples.countP (fun s => decide (tok ∈ s.1))) := by
  induction samples generalizing idx with
  | nil =>
    simp [processSamples]
  | cons s rest ih =>
    obtain ⟨ids, attn⟩ := s
    have hcnt : ((ids, attn) :: rest).countP (fun s => decide (tok ∈ s.1)) =
        rest.countP (fun s => decide (tok ∈ s.1)) + (if tok ∈ ids then 1 else 0) := by
      rw [List.countP_cons]
      by_cases hmem : tok ∈ ids <;> simp [hmem]
    rw [hcnt]
    by_cases hmem : tok ∈ ids
    · rw [if_pos hmem]
      by_cases hidx : idx < phs.length
      · rcases hrec : processSamples tok (some phs) rest (idx + 1) with e' | out
        · have hL : processSamples tok (some phs) ((ids, attn) :: rest) idx = .error e' := by
            simp [processSamples, hmem, hidx, hrec]
          have hR := (ih (idx + 1)).mp ⟨e', hrec⟩
          constructor
          · intro _
            omega
          · intro _
            exact ⟨e', hL⟩
        · have hL : processSamples tok (some phs) ((ids, attn) :: rest) idx =
              .ok ((replaceIds tok (phs.getD idx []) ids,
                replaceAttn tok (phs.getD idx []) ids attn) :: out) := by
            simp [processSamples, hmem, hidx, hrec]
          have hR : ¬ (phs.length < idx + 1 + rest.countP (fun s => decide (tok ∈ s.1)) ∧
              1 ≤ rest.countP (fun s => decide (tok ∈ s.1))) := by
            intro hcon
            obtain ⟨e', he'⟩ := (ih (idx + 1)).mpr hcon
            rw [he'] at hrec
            exact Except.noConfusion hrec
          constructor
          · rintro ⟨e', he'⟩
            rw [hL] at he'
            exact Except.noConfusion he'
          · intro hcon
            by_cases hz : 1 ≤ rest.countP (fun s => decide (tok ∈ s.1))
            · exact absurd ⟨by omega, hz⟩ hR
            · exfalso
              omega
      · have hL : processSamples tok (some phs) ((ids, attn) :: rest) idx =
            .error "Mismatch between the images you provided and the number of placeholder present in the text" := by
          simp [processSamples, hmem, hidx]
        constructor
        · intro _
          omega
        · intro _
          exact ⟨_, hL⟩
    · rw [if_neg hmem]
      rcases hrec : processSamples tok (some phs) rest idx with e' | out
      · have hL : processSamples tok (some phs) ((ids, attn) :: rest) idx = .error e' := by
          simp [processSamples, hmem, hrec]
        have hR := (ih idx).mp ⟨e', hrec⟩
        constructor
        · intro _
          omega
        · intro _
          exact ⟨e', hL⟩
      · have hL : processSamples tok (some phs) ((ids, attn) :: rest) idx =
            .ok ((ids, attn) :: out) := by
          simp [processSamples, hmem, hrec]
        have hR : ¬ (phs.length < idx + rest.countP (fun s => decide (tok ∈ s.1)) ∧
            1 ≤ rest.countP (fun s => decide (tok ∈ s.1))) := by
          intro hcon
          obtain ⟨e', he'⟩ := (ih idx).mpr hcon
          rw [he'] at hrec
          exact Except.noConfusion hrec
        constructor
        · rintro ⟨e', he'⟩
          rw [hL] at he'
          exact Except.noConfusion he'
        · intro hcon
          exact absurd (⟨by omega, by omega⟩ : phs.length < idx + rest.countP
              (fun s => decide (tok ∈ s.1)) ∧
              1 ≤ rest.countP (fun s => decide (tok ∈ s.1))) hR

/-- Number of sentinel-containing samples among the first `i` samples: the
image index consumed before sample `i` is reached. -/
def sentRank (tok : ℤ) (samples : List (List ℤ × List ℤ)) (i : ℕ) : ℕ :=
  (samples.take i).countP fun s => decide (tok ∈ s.1)

theorem sentRank_zero (tok : ℤ) (samples : List (List ℤ × List ℤ)) :
    sentRank tok samples 0 = 0 := by
  simp [sentRank]

theorem sentRank_cons_succ (tok : ℤ) (s : List ℤ × List ℤ)
    (rest : List (List ℤ × List ℤ)) (j : ℕ) :
    sentRank tok (s :: rest) (j + 1) =
      sentRank tok rest j + (if tok ∈ s.1 then 1 else 0) := by
  simp only [sentRank, List.take_succ_cons, List.countP_cons]
  by_cases hmem : tok ∈ s.1 <;> simp [hmem]

/-- Successful runs of the replacement loop: the output has one entry per
sample; the `i`-th output equals the `i`-th input with every sentinel
occurrence replaced by placeholder list number `idx + sentRank i` when the
sample contains the sentinel, and is unchanged otherwise. -/
theorem processSamples_ok_spec (tok : ℤ) (phs : List (List ℤ))
    (samples : List (List ℤ × List ℤ)) (idx : ℕ) (out : List (List ℤ × List ℤ))
    (h : processSamples tok (some phs) samples idx = .ok out) :
    out.length = samples.length ∧
    ∀ i, i < samples.length →
      out.getD i ([], []) =
        (if tok ∈ (samples.getD i ([], [])).1 then
          (replaceIds tok (phs.getD (idx + sentRank tok samples i) [])
              (samples.getD i ([], [])).1,
            replaceAttn tok (phs.getD (idx + sentRank tok samples i) [])
              (samples.getD i ([], [])).1 (samples.getD i ([], [])).2)
        else samples.getD i ([], [])) := by
  induction samples generalizing idx out with
  | nil =>
    simp only [processSamples, Except.ok.injEq] at h
    subst h
    exact ⟨rfl, fun i hi => absurd hi (by simp)⟩
  | cons s rest ih =>
    obtain ⟨ids, attn⟩ := s
    by_cases hmem : tok ∈ ids
    · by_cases hidx : idx < phs.length
      · rcases hrec : processSamples tok (some phs) rest (idx + 1) with e | out'
        · have hL : processSamples tok (some phs) ((ids, attn) :: rest) idx = .error e := by
            simp [processSamples, hmem, hidx, hrec]
          rw [hL] at h
          exact Except.noConfusion h
        · have hL : processSamples tok (some phs) ((ids, attn) :: rest) idx =
              .ok ((replaceIds tok (phs.getD idx []) ids,
                replaceAttn tok (phs.getD idx []) ids attn) :: out') := by
            simp [processSamples, hmem, hidx, hrec]
          rw [hL, Except.ok.injEq] at h
          subst h
          obtain ⟨hlen, hspec⟩ := ih (idx + 1) out' hrec
          refine ⟨by simp [hlen], ?_⟩
          intro i hi
          cases i with
          | zero =>
            simp only [List.getD_cons_zero, sentRank_zero, Nat.add_zero]
            rw [if_pos hmem]
          | succ j =>
            simp only [List.getD_cons_succ, sentRank_cons_succ]
            have hj : j < rest.length := by
              simpa using hi
            have := hspec j hj
            rw [if_pos hmem]
            have harith : idx + (sentRank tok rest j + 1) = idx + 1 + sentRank tok rest j := by
              omega
            rw [harith]
            exact this
      · have hL : processSamples tok (some phs) ((ids, attn) :: rest) idx =
            .error "Mismatch between the images you provided and the number of placeholder present in the text" := by
          simp [processSamples, hmem, hidx]
        rw [hL] at h
        exact Except.noConfusion h
    · by_cases hidx : idx < phs.length
      all_goals {
        rcases hrec : processSamples tok (some phs) rest idx with e | out'
        · have hL : processSamples tok (some phs) ((ids, attn) :: rest) idx = .error e := by
            simp [processSamples, hmem, hrec]
          rw [hL] at h
          exact Except.noConfusion h
        · have hL : processSamples tok (some phs) ((ids, attn) :: rest) idx =
              .ok ((ids, attn) :: out') := by
            simp [processSamples, hmem, hrec]
          rw [hL, Except.ok.injEq] at h
          subst h
          obtain ⟨hlen, hspec⟩ := ih idx out' hrec
          refine ⟨by simp [hlen], ?_⟩
          intro i hi
          cases i with
          | zero =>
            simp only [List.getD_cons_zero]
            rw [if_neg hmem]
          | succ j =>
            simp only [List.getD_cons_succ, sentRank_cons_succ]
            have hj : j < rest.length := by
              simpa using hi
            have := hspec j hj
            rw [if_neg hmem]
            simpa using this
      }

/-- C10 - In the replacement loop, every sentinel occurrence within one text
sample is replaced by the placeholder sequence of one single image, and the
image index advances by exactly one per sample containing at least one
sentinel (`sentRank` counts samples, not occurrences). -/
theorem c10_placeholder_index_per_sample (tok : ℤ) (phs : List (List ℤ))
    (samples out : List (List ℤ × List ℤ))
    (h : processSamples tok (some phs) samples 0 = .ok out) :
    out.length = samples.length ∧
    ∀ i, i < samples.length →
      out.getD i ([], []) =
        (if tok ∈ (samples.getD i ([], [])).1 then
          (replaceIds tok (phs.getD (sentRank tok samples i) [])
              (samples.getD i ([], [])).1,
            replaceAttn tok (phs.getD (sentRank tok samples i) [])
              (samples.getD i ([], [])).1 (samples.getD i ([], [])).2)
        else samples.getD i ([], [])) := by
  have hspec := processSamples_ok_spec tok phs samples 0 out h
  simpa using hspec

/-- Witness for C10 at a concrete input: the first sample contains two
sentinels and consumes only the first placeholder list (both occurrences);
the third sample consumes the second. -/
theorem c10_placeholder_index_per_sample_witness :
    (([([100, 101, 1, 100, 101], [1, 1, 1, 1, 1]), ([2], [1]), ([200], [1])] :
        List (List ℤ × List ℤ)).length
      = ([([7, 1, 7], [1, 1, 1]), ([2], [1]), ([7], [1])] :
        List (List ℤ × List ℤ)).length) ∧
    ∀ i, i < ([([7, 1, 7], [1, 1, 1]), ([2], [1]), ([7], [1])] :
        List (List ℤ × List ℤ)).length →
      ([([100, 101, 1, 100, 101], [1, 1, 1, 1, 1]), ([2], [1]), ([200], [1])] :
          List (List ℤ × List ℤ)).getD i ([], []) =
        (if (7 : ℤ) ∈ (([([7, 1, 7], [1, 1, 1]), ([2], [1]), ([7], [1])] :
            List (List ℤ × List ℤ)).getD i ([], [])).1 then
          (replaceIds 7 (([[100, 101], [200]] : List (List ℤ)).getD
              (sentRank 7 [([7, 1, 7], [1, 1, 1]), ([2], [1]), ([7], [1])] i) [])
              (([([7, 1, 7], [1, 1, 1]), ([2], [1]), ([7], [1])] :
                List (List ℤ × List ℤ)).getD i ([], [])).1,
            replaceAttn 7 (([[100, 101], [200]] : List (List ℤ)).getD
              (sentRank 7 [([7, 1, 7], [1, 1, 1]), ([2], [1]), ([7], [1])] i) [])
              (([([7, 1, 7], [1, 1, 1]), ([2], [1]), ([7], [1])] :
                List (List ℤ × List ℤ)).getD i ([], [])).1
              (([([7, 1, 7], [1, 1, 1]), ([2], [1]), ([7], [1])] :
                List (List ℤ × List ℤ)).getD i ([], [])).2)
        else ([([7, 1, 7], [1, 1, 1]), ([2], [1]), ([7], [1])] :
            List (List ℤ × List ℤ)).getD i ([], [])) :=
  c10_placeholder_index_per_sample 7 [[100, 101], [200]]
    [([7, 1, 7], [1, 1, 1]), ([2], [1]), ([7], [1])]
    [([100, 101, 1, 100, 101], [1, 1, 1, 1, 1]), ([2], [1]), ([200], [1])]
    (by rfl)

/-- C7 counterexample - a call with one text sample containing one sentinel
token and no images supplied returns a successful (unreplaced) result: no
error is raised at the processor boundary despite the count mismatch
(1 sentinel, 0 image groups). -/
theorem c7_counterexample_no_error_on_mismatch :
    processSamples 7 none [([5, 7, 6], [1, 1, 1])] 0 = .ok [([5, 7, 6], [1, 1, 1])] ∧
    ([5, 7, 6] : List ℤ).count 7 = 1 :=
  ⟨processSamples_none 7 [([5, 7, 6], [1, 1, 1])] 0, rfl⟩

/-- C7 (amended) - The loop raises iff images were supplied and the number of
sentinel-containing samples exceeds the number of placeholder lists; with no
images nothing is replaced and no error is raised. In particular, when each
sentinel-containing sample has its own placeholder list, no error occurs,
and on error no partial output is produced (the `Except` carries only the
message). -/
theorem c7_processor_error_behavior (tok : ℤ) (phs : List (List ℤ))
    (samples : List (List ℤ × List ℤ)) :
    ((∃ e, processSamples tok (some phs) samples 0 = .error e) ↔
      (phs.length < samples.countP (fun s => decide (tok ∈ s.1)) ∧
        1 ≤ samples.countP (fun s => decide (tok ∈ s.1)))) ∧
    processSamples tok none samples 0 = .ok samples := by
  refine ⟨?_, processSamples_none tok samples 0⟩
  have hiff := processSamples_error_iff tok phs samples 0
  simpa using hiff

/-! ## Tile normalization (`_preprocess`, C8) -/

/-- The `(new_width, new_height)` computed by `_preprocess`: equal sides both
become `side`; otherwise the longer side becomes exactly `side` and the
shorter side is scaled proportionally with `int` truncation. -/
def newSize (w h side : ℕ) : ℕ × ℕ :=
  if w = h then (side, side)
  else if w > h then (side, h * side / w)
  else (w * side / h, side)

/-- One entry of the `torch.zeros([1, 3, side, side])` canvas after the
resized pixel block `p` (of shape `nh × nw`) is written by the three
assignment branches of `_preprocess`: whole-canvas copy when `nh = nw`,
horizontal centering at `(side - nw) // 2` when `nh > nw`, vertical centering
at `(side - nh) // 2` otherwise. -/
def canvasEntry (nh nw side : ℕ) (p : ℕ → ℕ → ℚ) (y x : ℕ) : ℚ :=
  if nh = nw then p y x
  else if nh > nw then
    if (side - nw) / 2 ≤ x ∧ x < (side - nw) / 2 + nw then p y (x - (side - nw) / 2)
    else 0
  else
    if (side - nh) / 2 ≤ y ∧ y < (side - nh) / 2 + nh then p (y - (side - nh) / 2) x
    else 0

/-- Embedding of `_preprocess(img, side)` modulo the external resize: the
`side × side` square tile (row-major) built from the resized pixel function
`p`, whose shape is `newSize w h side`. -/
def _preprocess (w h side : ℕ) (p : ℕ → ℕ → ℚ) : List (List ℚ) :=
  (List.range side).map fun y =>
    (List.range side).map fun x =>
      canvasEntry (newSize w h side).2 (newSize w h side).1 side p y x

theorem scaled_side_lt (a b side : ℕ) (hab : a < b) (hs : 1 ≤ side) :
    a * side / b < side := by
  rw [Nat.div_lt_iff_lt_mul (by omega : 0 < b)]
  calc a * side < b * side := (Nat.mul_lt_mul_right (by omega : 0 < side)).mpr hab
  _ = side * b := Nat.mul_comm _ _

/-- C8 - `_preprocess` produces a fixed `side × side` tile; the resize makes
the longer side exactly `side` and floor-scales the shorter one; the resized
block is centered along the shorter axis at offset `(side - short) // 2`,
the odd leftover pixel padding the trailing side; exact squares get no
offset. -/
theorem c8_preprocess_tile_geometry (w h side : ℕ) (p : ℕ → ℕ → ℚ)
    (hw : 1 ≤ w) (hh : 1 ≤ h) (hs : 1 ≤ side) :
    ((_preprocess w h side p).length = side ∧
      ∀ row ∈ _preprocess w h side p, row.length = side) ∧
    max (newSize w h side).1 (newSize w h side).2 = side ∧
    min (newSize w h side).1 (newSize w h side).2 = min w h * side / max w h ∧
    (w = h →
      ∀ y x : ℕ, canvasEntry (newSize w h side).2 (newSize w h side).1 side p y x
        = p y x) ∧
    (h < w →
      (newSize w h side).1 = side ∧ (newSize w h side).2 = h * side / w ∧
      (side - h * side / w) / 2 + h * side / w ≤ side ∧
      side - ((side - h * side / w) / 2 + h * side / w)
        = (side - h * side / w) / 2 + (side - h * side / w) % 2 ∧
      (∀ y x : ℕ, canvasEntry (newSize w h side).2 (newSize w h side).1 side p y x
        = if (side - h * side / w) / 2 ≤ y ∧ y < (side - h * side / w) / 2 + h * side / w
          then p (y - (side - h * side / w) / 2) x else 0)) ∧
    (w < h →
      (newSize w h side).2 = side ∧ (newSize w h side).1 = w * side / h ∧
      (side - w * side / h) / 2 + w * side / h ≤ side ∧
      side - ((side - w * side / h) / 2 + w * side / h)
        = (side - w * side / h) / 2 + (side - w * side / h) % 2 ∧
      (∀ y x : ℕ, canvasEntry (newSize w h side).2 (newSize w h side).1 side p y x
        = if (side - w * side / h) / 2 ≤ x ∧ x < (side - w * side / h) / 2 + w * side / h
          then p y (x - (side - w * side / h) / 2) else 0)) := by
  refine ⟨⟨by simp [_preprocess], ?_⟩, ?_, ?_, ?_, ?_, ?_⟩
  · intro row hrow
    obtain ⟨y, _, rfl⟩ := List.mem_map.mp hrow
    simp
  · rcases lt_trichotomy w h with hlt | heq | hgt
    · have hns : newSize w h side = (w * side / h, side) := by
        rw [newSize, if_neg (by omega : ¬ w = h), if_neg (by omega : ¬ w > h)]
      have hle : w * side / h ≤ side := le_of_lt (scaled_side_lt w h side hlt hs)
      rw [hns]
      dsimp only
      omega
    · subst heq
      have hns : newSize w w side = (side, side) := by
        rw [newSize, if_pos rfl]
      rw [hns]
      dsimp only
      exact max_self side
    · have hns : newSize w h side = (side, h * side / w) := by
        rw [newSize, if_neg (by omega : ¬ w = h), if_pos hgt]
      have hle : h * side / w ≤ side := le_of_lt (scaled_side_lt h w side hgt hs)
      rw [hns]
      dsimp only
      omega
  · rcases lt_trichotomy w h with hlt | heq | hgt
    · have hns : newSize w h side = (w * side / h, side) := by
        rw [newSize, if_neg (by omega : ¬ w = h), if_neg (by omega : ¬ w > h)]
      have hle : w * side / h ≤ side := le_of_lt (scaled_side_lt w h side hlt hs)
      have hmin1 : min w h = w := by omega
      have hmax1 : max w h = h := by omega
      rw [hns, hmin1, hmax1]
      dsimp only
      omega
    · subst heq
      have hns : newSize w w side = (side, side) := by
        rw [newSize, if_pos rfl]
      have hcancel : w * side / w = side := by
        rw [Nat.mul_comm, Nat.mul_div_cancel _ (by omega : 0 < w)]
      rw [hns, min_self, max_self]
      dsimp only
      rw [min_self, hcancel]
    · have hns : newSize w h side = (side, h * side / w) := by
        rw [newSize, if_neg (by omega : ¬ w = h), if_pos hgt]
      have hle : h * side / w ≤ side := le_of_lt (scaled_side_lt h w side hgt hs)
      have hmin1 : min w h = h := by omega
      have hmax1 : max w h = w := by omega
      rw [hns, hmin1, hmax1]
      dsimp only
      omega
  · intro heq
    subst heq
    intro y x
    rw [newSize, if_pos rfl]
    rw [canvasEntry, if_pos rfl]
  · intro hgt
    have hne : ¬ w = h := by omega
    have hlt2 : h * side / w < side := scaled_side_lt h w side hgt hs
    have hns : newSize w h side = (side, h * side / w) := by
      rw [newSize, if_neg hne, if_pos hgt]
    rw [hns]
    refine ⟨rfl, rfl, by omega, by omega, ?_⟩
    intro y x
    rw [canvasEntry, if_neg (by omega : ¬ h * side / w = side),
      if_neg (by omega : ¬ h * side / w > side)]
  · intro hlt
    have hne : ¬ w = h := by omega
    have hng : ¬ w > h := by omega
    have hlt2 : w * side / h < side := scaled_side_lt w h side hlt hs
    have hns : newSize w h side = (w * side / h, side) := by
      rw [newSize, if_neg hne, if_neg hng]
    rw [hns]
    refine ⟨rfl, rfl, by omega, by omega, ?_⟩
    intro y x
    rw [canvasEntry, if_neg (by omega : ¬ (side : ℕ) = w * side / h),
      if_pos (by omega : (side : ℕ) > w * side / h)]

/-- Witness for C8 at a concrete input. -/
theorem c8_preprocess_tile_geometry_witness :
    ((_preprocess 5 3 4 (fun y x => (y : ℚ) * 10 + x)).length = 4 ∧
      ∀ row ∈ _preprocess 5 3 4 (fun y x => (y : ℚ) * 10 + x), row.length = 4) ∧
    max (newSize 5 3 4).1 (newSize 5 3 4).2 = 4 ∧
    min (newSize 5 3 4).1 (newSize 5 3 4).2 = min 5 3 * 4 / max 5 3 ∧
    ((5 : ℕ) = 3 →
      ∀ y x : ℕ, canvasEntry (newSize 5 3 4).2 (newSize 5 3 4).1 4
        (fun y x => (y : ℚ) * 10 + x) y x = (y : ℚ) * 10 + x) ∧
    ((3 : ℕ) < 5 →
      (newSize 5 3 4).1 = 4 ∧ (newSize 5 3 4).2 = 3 * 4 / 5 ∧
      (4 - 3 * 4 / 5) / 2 + 3 * 4 / 5 ≤ 4 ∧
      4 - ((4 - 3 * 4 / 5) / 2 + 3 * 4 / 5)
        = (4 - 3 * 4 / 5) / 2 + (4 - 3 * 4 / 5) % 2 ∧
      (∀ y x : ℕ, canvasEntry (newSize 5 3 4).2 (newSize 5 3 4).1 4
          (fun y x => (y : ℚ) * 10 + x) y x
        = if (4 - 3 * 4 / 5) / 2 ≤ y ∧ y < (4 - 3 * 4 / 5) / 2 + 3 * 4 / 5
          then ((y - (4 - 3 * 4 / 5) / 2 : ℕ) : ℚ) * 10 + x else 0)) ∧
    ((5 : ℕ) < 3 →
      (newSize 5 3 4).2 = 4 ∧ (newSize 5 3 4).1 = 5 * 4 / 3 ∧
      (4 - 5 * 4 / 3) / 2 + 5 * 4 / 3 ≤ 4 ∧
      4 - ((4 - 5 * 4 / 3) / 2 + 5 * 4 / 3)
        = (4 - 5 * 4 / 3) / 2 + (4 - 5 * 4 / 3) % 2 ∧
      (∀ y x : ℕ, canvasEntry (newSize 5 3 4).2 (newSize 5 3 4).1 4
          (fun y x => (y : ℚ) * 10 + x) y x
        = if (4 - 5 * 4 / 3) / 2 ≤ x ∧ x < (4 - 5 * 4 / 3) / 2 + 5 * 4 / 3
          then (y : ℚ) * 10 + (x - (4 - 5 * 4 / 3) / 2 : ℕ) else 0)) :=
  c8_preprocess_tile_geometry 5 3 4 (fun y x => (y : ℚ) * 10 + x)
    (by decide) (by decide) (by decide)

/-! ## Determinism and enumeration order (`_get_best_grid`, C9) -/

/-- `all_grids` built from an arbitrary candidate enumeration. -/
def allGridsFrom (cands : List (ℕ × ℕ)) (w h side : ℕ) : List ((ℕ × ℕ) × ℚ) :=
  cands.map fun g => (g, coveringRatio w h side g)

/-- `good_grids` built from an arbitrary candidate enumeration. -/
def goodGridsFrom (cands : List (ℕ × ℕ)) (w h side : ℕ) (tau : ℚ) :
    List ((ℕ × ℕ) × ℚ) :=
  (allGridsFrom cands w h side).filter fun x => decide (tau < x.2)

/-- `_get_best_grid` run on an arbitrary enumeration of the candidate grids
(the body of the source function, with the `for`-loop order made a
parameter). -/
def _get_best_grid_from (cands : List (ℕ × ℕ)) (w h side : ℕ) (tau : ℚ) :
    Option (ℕ × ℕ) :=
  match sortedFirst goodKey (goodGridsFrom cands w h side tau) with
  | some x => some x.1
  | none => (sortedFirst allKey (allGridsFrom cands w h side)).map Prod.fst

/-- The planner is `_get_best_grid_from` at the source's enumeration order. -/
theorem _get_best_grid_eq_from (w h side N : ℕ) (tau : ℚ) :
    _get_best_grid w h side N tau = _get_best_grid_from (candidateGrids N) w h side tau :=
  rfl

theorem rangeOne : List.range 1 = [0] := rfl

theorem candidateGrids_six :
    candidateGrids 6 = [(1, 1), (1, 2), (1, 3), (1, 4), (1, 5), (1, 6), (2, 1),
      (2, 2), (2, 3), (3, 1), (3, 2), (4, 1), (5, 1), (6, 1)] := by
  decide

theorem allGrids_3316 :
    allGrids 3 3 1 6 = [((1, 1), 1/9), ((1, 2), 1/9), ((1, 3), 1/9), ((1, 4), 1/9),
      ((1, 5), 1/9), ((1, 6), 1/9), ((2, 1), 1/9), ((2, 2), 1/3), ((2, 3), 1/2),
      ((3, 1), 1/9), ((3, 2), 1/2), ((4, 1), 1/9), ((5, 1), 1/9), ((6, 1), 1/9)] := by
  rw [allGrids, candidateGrids_six]
  norm_num [coveringRatio, _partition, cell, _covering_area, List.range_succ, rangeOne]

theorem goodGrids_3316_empty : goodGrids 3 3 1 6 (9/10) = [] := by
  rw [goodGrids, allGrids_3316]
  norm_num [List.filter_cons, List.filter_nil, decide_eq_true_eq]

theorem best_3316 : _get_best_grid 3 3 1 6 (9/10) = some (2, 3) := by
  have hnone : sortedFirst goodKey (goodGrids 3 3 1 6 (9/10)) = none :=
    (sortedFirst_eq_none _ _).mpr goodGrids_3316_empty
  unfold _get_best_grid
  rw [hnone, allGrids_3316]
  norm_num [sortedFirst, List.foldl, lexLt, allKey]

theorem candidateGrids_six_rev :
    (candidateGrids 6).reverse = [(6, 1), (5, 1), (4, 1), (3, 2), (3, 1), (2, 3),
      (2, 2), (2, 1), (1, 6), (1, 5), (1, 4), (1, 3), (1, 2), (1, 1)] := by
  decide

theorem allGridsFrom_rev_3316 :
    allGridsFrom (candidateGrids 6).reverse 3 3 1 = [((6, 1), 1/9), ((5, 1), 1/9),
      ((4, 1), 1/9), ((3, 2), 1/2), ((3, 1), 1/9), ((2, 3), 1/2), ((2, 2), 1/3),
      ((2, 1), 1/9), ((1, 6), 1/9), ((1, 5), 1/9), ((1, 4), 1/9), ((1, 3), 1/9),
      ((1, 2), 1/9), ((1, 1), 1/9)] := by
  rw [allGridsFrom, candidateGrids_six_rev]
  norm_num [coveringRatio, _partition, cell, _covering_area, List.range_succ, rangeOne]

theorem goodGridsFrom_rev_3316_empty :
    goodGridsFrom (candidateGrids 6).reverse 3 3 1 (9/10) = [] := by
  rw [goodGridsFrom, allGridsFrom_rev_3316]
  norm_num [List.filter_cons, List.filter_nil, decide_eq_true_eq]

theorem best_3316_rev :
    _get_best_grid_from (candidateGrids 6).reverse 3 3 1 (9/10) = some (3, 2) := by
  have hnone : sortedFirst goodKey
      (goodGridsFrom (candidateGrids 6).reverse 3 3 1 (9/10)) = none :=
    (sortedFirst_eq_none _ _).mpr goodGridsFrom_rev_3316_empty
  unfold _get_best_grid_from
  rw [hnone, allGridsFrom_rev_3316]
  norm_num [sortedFirst, List.foldl, lexLt, allKey]

theorem ratio_23_eq_32 : coveringRatio 3 3 1 (2, 3) = coveringRatio 3 3 1 (3, 2) := by
  have h1 : coveringRatio 3 3 1 (2, 3) = 1/2 := by
    norm_num [coveringRatio, _partition, cell, _covering_area, List.range_succ, rangeOne]
  have h2 : coveringRatio 3 3 1 (3, 2) = 1/2 := by
    norm_num [coveringRatio, _partition, cell, _covering_area, List.range_succ, rangeOne]
  rw [h1, h2]

/-- C9 counterexample - on the 3×3 image with tile side 1, budget 6 and the
default threshold 9/10, grids `(2,3)` and `(3,2)` tie on covering ratio
(both 1/2, the maximum) and on `r*c`; the planner picks `(2,3)` under the
source's enumeration order but `(3,2)` under the reversed (permuted)
enumeration, so the chosen grid is NOT independent of candidate enumeration
order. -/
theorem c9_counterexample_order_dependence :
    (candidateGrids 6).Perm (candidateGrids 6).reverse ∧
    _get_best_grid 3 3 1 6 (9 / 10) = some (2, 3) ∧
    _get_best_grid_from (candidateGrids 6).reverse 3 3 1 (9 / 10) = some (3, 2) ∧
    coveringRatio 3 3 1 (2, 3) = coveringRatio 3 3 1 (3, 2) ∧
    (2 : ℕ) * 3 = 3 * 2 ∧
    ((2, 3) : ℕ × ℕ) ≠ (3, 2) :=
  ⟨(List.reverse_perm _).symm, best_3316, best_3316_rev, ratio_23_eq_32, rfl, by decide⟩

theorem lexLt_total_eq {a b : ℚ × ℚ} (h1 : ¬ lexLt a b) (h2 : ¬ lexLt b a) :
    a = b := by
  rcases lexLt_trichotomy a b with h | h | h
  · exact absurd h h1
  · exact h
  · exact absurd h h2

theorem sortedFirst_isSome_of_ne_nil {α : Type} (key : α → ℚ × ℚ) {l : List α}
    (h : l ≠ []) : ∃ a, sortedFirst key l = some a := by
  cases l with
  | nil => exact absurd rfl h
  | cons b t => exact ⟨_, rfl⟩

/-- Stable-sort winners over permuted lists carry the same key. -/
theorem sortedFirst_perm_key {α : Type} (key : α → ℚ × ℚ) {l1 l2 : List α}
    (hperm : l1.Perm l2) {a1 a2 : α}
    (h1 : sortedFirst key l1 = some a1) (h2 : sortedFirst key l2 = some a2) :
    key a1 = key a2 := by
  have m1 := sortedFirst_mem key h1
  have m2 := sortedFirst_mem key h2
  have min1 := sortedFirst_min key h1 a2 (hperm.symm.subset m2)
  have min2 := sortedFirst_min key h2 a1 (hperm.subset m1)
  exact lexLt_total_eq min2 min1

theorem mem_allGridsFrom (cands : List (ℕ × ℕ)) (w h side : ℕ)
    (x : (ℕ × ℕ) × ℚ) (hx : x ∈ allGridsFrom cands w h side) :
    x.2 = coveringRatio w h side x.1 := by
  obtain ⟨g, _, rfl⟩ := List.mem_map.mp hx
  rfl

/-- C9 (amended) - The planner is a pure function of `(w, h, S, max_partition, τ)`
(determinism holds by construction), and under any permutation of the
candidate grid list it selects a grid with the same `r*c` and the same
covering ratio; the identical grid is not guaranteed when two distinct
candidates tie on both, the tie being resolved by enumeration order. -/
theorem c9_permutation_key_invariance (w h side : ℕ) (tau : ℚ)
    (cands1 cands2 : List (ℕ × ℕ)) (hperm : cands1.Perm cands2) (g1 : ℕ × ℕ)
    (h1 : _get_best_grid_from cands1 w h side tau = some g1) :
    ∃ g2, _get_best_grid_from cands2 w h side tau = some g2 ∧
      g2.1 * g2.2 = g1.1 * g1.2 ∧
      coveringRatio w h side g2 = coveringRatio w h side g1 := by
  have hpermAll : (allGridsFrom cands1 w h side).Perm (allGridsFrom cands2 w h side) :=
    hperm.map _
  have hpermGood : (goodGridsFrom cands1 w h side tau).Perm
      (goodGridsFrom cands2 w h side tau) :=
    hpermAll.filter _
  rcases hg1 : sortedFirst goodKey (goodGridsFrom cands1 w h side tau) with _ | x1
  · -- fallback branch on both sides
    have hempty1 : goodGridsFrom cands1 w h side tau = [] :=
      (sortedFirst_eq_none _ _).mp hg1
    have hempty2 : goodGridsFrom cands2 w h side tau = [] := by
      have := hpermGood
      rw [hempty1] at this
      exact this.symm.eq_nil
    rcases ha1 : sortedFirst allKey (allGridsFrom cands1 w h side) with _ | x1
    · rw [_get_best_grid_from, hg1, ha1] at h1
      exact Option.noConfusion h1
    · rw [_get_best_grid_from, hg1, ha1] at h1
      have hx1g : x1.1 = g1 := by
        simpa using h1
      have hne2 : allGridsFrom cands2 w h side ≠ [] := by
        intro hnil
        rw [hnil] at hpermAll
        have := hpermAll.eq_nil
        rw [this] at ha1
        simp [sortedFirst] at ha1
      obtain ⟨x2, hx2⟩ := sortedFirst_isSome_of_ne_nil allKey hne2
      have hkey := sortedFirst_perm_key allKey hpermAll ha1 hx2
      have hr1 := mem_allGridsFrom cands1 w h side x1 (sortedFirst_mem _ ha1)
      have hr2 := mem_allGridsFrom cands2 w h side x2 (sortedFirst_mem _ hx2)
      refine ⟨x2.1, ?_, ?_, ?_⟩
      · rw [_get_best_grid_from, (sortedFirst_eq_none goodKey _).mpr hempty2, hx2]
        rfl
      · have hfst : (allKey x1).2 = (allKey x2).2 := by rw [hkey]
        unfold allKey at hfst
        dsimp only at hfst
        have : x2.1.1 * x2.1.2 = x1.1.1 * x1.1.2 := by exact_mod_cast hfst.symm
        rw [← hx1g]
        exact this
      · have hsnd : (allKey x1).1 = (allKey x2).1 := by rw [hkey]
        unfold allKey at hsnd
        dsimp only at hsnd
        have hx12 : x2.2 = x1.2 := (neg_inj.mp hsnd).symm
        rw [← hx1g, ← hr1, ← hr2]
        exact hx12
  · -- good branch on both sides
    rw [_get_best_grid_from, hg1] at h1
    have hx1g : x1.1 = g1 := by
      simpa using h1
    have hne2 : goodGridsFrom cands2 w h side tau ≠ [] := by
      intro hnil
      rw [hnil] at hpermGood
      have := hpermGood.eq_nil
      rw [this] at hg1
      simp [sortedFirst] at hg1
    obtain ⟨x2, hx2⟩ := sortedFirst_isSome_of_ne_nil goodKey hne2
    have hkey := sortedFirst_perm_key goodKey hpermGood hg1 hx2
    have hr1 : x1.2 = coveringRatio w h side x1.1 :=
      mem_allGridsFrom cands1 w h side x1
        (List.mem_of_mem_filter (sortedFirst_mem _ hg1))
    have hr2 : x2.2 = coveringRatio w h side x2.1 :=
      mem_allGridsFrom cands2 w h side x2
        (List.mem_of_mem_filter (sortedFirst_mem _ hx2))
    refine ⟨x2.1, ?_, ?_, ?_⟩
    · rw [_get_best_grid_from, hx2]
    · have hfst : (goodKey x1).1 = (goodKey x2).1 := by rw [hkey]
      unfold goodKey at hfst
      dsimp only at hfst
      have : x2.1.1 * x2.1.2 = x1.1.1 * x1.1.2 := by exact_mod_cast hfst.symm
      rw [← hx1g]
      exact this
    · have hsnd : (goodKey x1).2 = (goodKey x2).2 := by rw [hkey]
      unfold goodKey at hsnd
      dsimp only at hsnd
      have hx12 : x2.2 = x1.2 := (neg_inj.mp hsnd).symm
      rw [← hx1g, ← hr1, ← hr2]
      exact hx12

/-- Witness for the amended C9 at a concrete input: the tie itself. -/
theorem c9_permutation_key_invariance_witness :
    ∃ g2, _get_best_grid_from (candidateGrids 6).reverse 3 3 1 (9 / 10) = some g2 ∧
      g2.1 * g2.2 = (2 : ℕ) * 3 ∧
      coveringRatio 3 3 1 g2 = coveringRatio 3 3 1 (2, 3) :=
  c9_permutation_key_invariance 3 3 1 (9 / 10) (candidateGrids 6)
    (candidateGrids 6).reverse ((List.reverse_perm _).symm) (2, 3)
    ((_get_best_grid_eq_from 3 3 1 6 (9 / 10)) ▸ best_3316)

end Ovis
